import Mathlib

/-!
# Verification of the kobra/ox command-line parsing core

A shallow embedding of the repository's command-tree resolver, flag
declarations, default population, token-scanning parser (long flags, short
flag clusters, the `--` terminator), and the suggestion / completion engine,
together with theorems settling the frozen claims about them.

The source of each definition is the corresponding Go function in
`src/cmd.go`, `src/ctx.go`, `src/help.go`.  A few leaf helpers the Go code
calls (`Vars.Set`, `Context.Expand`, `Ldist`, `DefaultMinDist`,
`toBoolString`, the one-argument `Command.Flag`, `NewSuggestionError`,
`Completion`) are declared or used by the sources but their bodies are not
part of the given files; those are modelled from the specification and are
marked `Modelled from the spec:` in their doc comments.

Strings are modelled with Lean `String` / `List Char`; the Go code indexes
strings by byte only to compare against the ASCII characters `'-'` and `'='`,
so the rune-level model agrees with it on every input the claims quantify
over.
-/

namespace Kobra

/-- Error taxonomy of the parser, following `src/cmd.go`: sentinel errors
(`ErrUnknownFlag`, `ErrMissingArgument`, ...) and the wrapping constructors
`newFlagError`, `newCommandError`, the `cannot populate` wrap in
`Command.Populate`, the `SuggestionError`, and the generic unknown-command
message produced by `Suggest`. -/
inductive Err where
  /-- sentinel `ErrUnknownFlag` -/
  | errUnknownFlag : Err
  /-- sentinel `ErrMissingArgument` -/
  | errMissingArgument : Err
  /-- sentinel `ErrUnknownCommand` -/
  | errUnknownCommand : Err
  /-- a value failed type coercion for a flag (carries flag name and raw text) -/
  | invalidValue (name value : String) : Err
  /-- an expansion failure from `Context.Expand` -/
  | expandError (s : String) : Err
  /-- `newFlagError(name, err)`: decorates an error with the flag identity -/
  | flagError (name : String) (e : Err) : Err
  /-- `newCommandError(name, err)` -/
  | commandError (name : String) (e : Err) : Err
  /-- the `cannot populate <flag> with <value>` wrap in `Command.Populate` -/
  | populateError (name value : String) (e : Err) : Err
  /-- `NewSuggestionError(cmd, token, target)`: corrective "did you mean" -/
  | suggestionError (cmdName token target : String) : Err
  /-- the generic unknown-command error of `Suggest`, carrying the offending
  token and the command name -/
  | suggestionMessage (token cmdName : String) : Err
deriving DecidableEq, Repr

/-- Flag value types.  The source's `Type` enumerates many scalar types; the
claims only distinguish scalars, the containers (`SliceT`, `MapT`) and the
hook type (`HookT`), so the scalar family is represented by `stringT` and
`boolT` (a representative coercion-checked scalar). -/
inductive Ty where
  | stringT : Ty
  | boolT : Ty
  | sliceT : Ty
  | mapT : Ty
  | hookT : Ty
deriving DecidableEq, Repr

/-- Container types accumulate on repeated explicit assignment. -/
def Ty.isContainer : Ty → Bool
  | .sliceT => true
  | .mapT => true
  | _ => false

/-- Modelled from the spec: value coercion ("parse-from-string fails with a
type-mismatch condition on malformed input").  Text always coerces; the
boolean type accepts exactly the forms Go's `strconv.ParseBool` accepts,
standing in for the coercion-checked scalar types. -/
def Ty.parses : Ty → String → Bool
  | .boolT, s =>
      s ∈ ["1", "t", "T", "TRUE", "true", "True", "0", "f", "F", "FALSE", "false", "False"]
  | _, _ => true

/-- A flag declaration, following `Flag` in `src/cmd.go` (fields the claims
touch).  `Def` is the untyped default, modelled as optional text (`none` is
Go `nil`); `noArgDef` is the `NoArgDef` field declared alongside `NoArg`. -/
structure Flag where
  typ : Ty
  name : String
  short : String
  aliases : List String
  Def : Option String
  noArg : Bool
  noArgDef : Option String
  special : String
deriving DecidableEq, Repr

/-- One live variable: the assigned raw value(s) (containers accumulate,
scalars hold a single element) and whether it was explicitly set on the
command line. -/
structure VarEntry where
  values : List String
  explicitSet : Bool
deriving DecidableEq, Repr

/-- The variable table of one parse invocation.  Go's `Vars` is a
`map[string]Value`; it is modelled as an association list keyed by flag long
name.  A hook value stores no data and only runs its action when assigned,
so assignments to hook flags are recorded in the effect log `hookRuns`. -/
structure Vars where
  entries : List (String × VarEntry)
  hookRuns : List String
deriving DecidableEq, Repr

/-- First-occurrence lookup in the entries list (Go map indexing). -/
def lookupEntry (es : List (String × VarEntry)) (k : String) : Option VarEntry :=
  match es with
  | [] => none
  | (k', e) :: es => if k' = k then some e else lookupEntry es k

/-- Store a value under a key: replace the first occurrence, else append
(Go map assignment). -/
def setEntry (es : List (String × VarEntry)) (k : String) (e : VarEntry) :
    List (String × VarEntry) :=
  match es with
  | [] => [(k, e)]
  | (k', e') :: es => if k' = k then (k, e) :: es else (k', e') :: setEntry es k e

/-- Remove a key (Go `delete`). -/
def eraseEntry (es : List (String × VarEntry)) (k : String) :
    List (String × VarEntry) :=
  match es with
  | [] => []
  | (k', e') :: es => if k' = k then eraseEntry es k else (k', e') :: eraseEntry es k

/-- Modelled from the spec: `Vars.Set(flag, rawText, isExplicitAssignment)`
(the single assignment entry point; its body is not under `src/`).  A hook
flag stores no data and its side-effecting action fires at assignment time,
recorded in `hookRuns`.  Otherwise the raw text is coerced (failing with a
type-mismatch condition), then: explicit assignments append for containers
and overwrite for scalars; default population is suppressed when an explicit
value already exists and otherwise overwrites. -/
def Vars.set (vars : Vars) (g : Flag) (s : String) (explicit : Bool) : Except Err Vars :=
  if g.typ = .hookT then
    .ok { vars with hookRuns := vars.hookRuns ++ [g.name] }
  else if g.typ.parses s = false then
    .error (.invalidValue g.name s)
  else if explicit then
    match lookupEntry vars.entries g.name with
    | some e =>
        if g.typ.isContainer then
          .ok { vars with entries := setEntry vars.entries g.name ⟨e.values ++ [s], true⟩ }
        else
          .ok { vars with entries := setEntry vars.entries g.name ⟨[s], true⟩ }
    | none => .ok { vars with entries := setEntry vars.entries g.name ⟨[s], true⟩ }
  else
    match lookupEntry vars.entries g.name with
    | some e =>
        if e.explicitSet then .ok vars
        else .ok { vars with entries := setEntry vars.entries g.name ⟨[s], false⟩ }
    | none => .ok { vars with entries := setEntry vars.entries g.name ⟨[s], false⟩ }

/-- Modelled from the spec: the evaluation context, reduced to the one
collaborator interface the claims need, `Expand(rawDefault) -> (string,
error)` (expansion of a flag's untyped default before coercion). -/
structure Context where
  expand : String → Except Err String

/-- Modelled from the spec: `toBoolString` (not under `src/`), the value a
no-argument flag is satisfied with when present without an explicit
argument: the flag's default rendered as text, a `nil` default standing for
the boolean-toggle value `"true"`. -/
def toBoolString : Option String → String
  | none => "true"
  | some s => s

/-- A command node, following `Command` in `src/cmd.go` (fields the claims
touch).  `minDist` models `Help.(*CommandHelp).MinDist` (`0` when the help
carries no positive distance, as in the source's `minDist <= 0` test);
the parent back-reference and execution-related fields are not needed by
any claim. -/
inductive Command where
  | mk (name usage : String) (aliases suggested : List String)
       (flags : List Flag) (commands : List Command)
       (minDist : Nat) (special : String)

/-- The command's name. -/
def Command.name : Command → String
  | .mk n _ _ _ _ _ _ _ => n

/-- The command's usage text. -/
def Command.usage : Command → String
  | .mk _ u _ _ _ _ _ _ => u

/-- The command's aliases. -/
def Command.aliases : Command → List String
  | .mk _ _ a _ _ _ _ _ => a

/-- The command's suggested names. -/
def Command.suggested : Command → List String
  | .mk _ _ _ s _ _ _ _ => s

/-- The command's flag declarations (`nil` and the empty flag set behave
identically everywhere the claims look, so both are the empty list). -/
def Command.flags : Command → List Flag
  | .mk _ _ _ _ f _ _ _ => f

/-- The command's sub commands, in declaration order. -/
def Command.commands : Command → List Command
  | .mk _ _ _ _ _ c _ _ => c

/-- The command's help edit-distance threshold (`0` = unset). -/
def Command.minDist : Command → Nat
  | .mk _ _ _ _ _ _ d _ => d

/-- The command's special marker. -/
def Command.special : Command → String
  | .mk _ _ _ _ _ _ _ s => s

/-- The scan of `Command.Command` over the children in declaration order. -/
def commandFind (name : String) : List Command → Option Command
  | [] => none
  | c :: cs => if c.name = name ∨ name ∈ c.aliases then some c else commandFind name cs

/-- `Command.Command` (src/cmd.go:174-182): the first child whose name or
alias equals `name`, else `nil`. -/
def Command.command (cmd : Command) (name : String) : Option Command :=
  commandFind name cmd.commands

/-- `Command.Lookup` (src/cmd.go:161-172): walk the names, descending while
resolution succeeds, stopping at the first name with no match. -/
def Command.lookup (cmd : Command) : List String → Command
  | [] => cmd
  | n :: ns =>
    match cmd.command n with
    | some c => c.lookup ns
    | none => cmd

/-- Modelled from the spec: the one-argument `Command.Flag(name)` used by
`parse` (its body is not under `src/`): flag lookup in the cursor's own
flag set by long name, short name, or alias.  The claims quantify over the
cursor's resolvable flags, so the parent-chain recursion of the
three-argument variant is not needed here. -/
def Command.flagLookup (cmd : Command) (name : String) : Option Flag :=
  cmd.flags.find? fun g => g.name = name ∨ g.short = name ∨ name ∈ g.aliases

/-- `Command.Populate` (src/cmd.go:112-135), as the loop over the flag list:
optionally delete the existing variable when `overwrite` is set, skip hook
flags and (unless `all`) flags without a default, expand the default, and
commit through `Vars.set` with `explicit = false`, wrapping a set failure in
the `cannot populate` error. -/
def populateGo (ctx : Context) (all overwrite : Bool) :
    List Flag → Vars → Except Err Vars
  | [], vars => .ok vars
  | g :: gs, vars =>
    let vars :=
      if (lookupEntry vars.entries g.name).isSome && overwrite then
        { vars with entries := eraseEntry vars.entries g.name }
      else vars
    if g.typ = .hookT ∨ (g.Def = none ∧ all = false) then
      populateGo ctx all overwrite gs vars
    else
      match (match g.Def with
             | some d => ctx.expand d
             | none => .ok "") with
      | .error e => .error e
      | .ok value =>
        match vars.set g value false with
        | .error e => .error (.populateError g.name value e)
        | .ok vars => populateGo ctx all overwrite gs vars

/-- `Command.Populate` (src/cmd.go:112-135). -/
def Command.populate (cmd : Command) (ctx : Context) (all overwrite : Bool)
    (vars : Vars) : Except Err Vars :=
  populateGo ctx all overwrite cmd.flags vars

/-- Modelled from the spec: `DefaultMinDist` (not under `src/`), the default
edit-distance threshold, "a default small constant, e.g. 2"; the spec's
suggestion example uses threshold 2. -/
def DefaultMinDist : Nat := 2

/-- Modelled from the spec: case folding of a candidate (`strings.ToLower`
on the rune sequence), as ASCII folding. -/
def lowerStr (s : String) : String := ⟨s.data.map Char.toLower⟩

/-- `strings.HasPrefix` on the rune sequences. -/
def strHasPre (s pre : String) : Bool := pre.data.isPrefixOf s.data

/-- One row of the Levenshtein recurrence: distances of `x :: xs` against
the second word, `f` being the distance function of `xs`. -/
def ldistGo (x : Char) (xs : List Char) (f : List Char → Nat) : List Char → Nat
  | [] => xs.length + 1
  | y :: ys =>
    if x = y then f ys
    else 1 + min (f (y :: ys)) (min (ldistGo x xs f ys) (f ys))

/-- Modelled from the spec: `Ldist` (not under `src/`), the classic
Levenshtein recurrence with insertion/deletion/substitution each of cost 1
and no transposition discount. -/
def ldist : List Char → List Char → Nat
  | [] => fun ys => ys.length
  | x :: xs => fun ys => ldistGo x xs (ldist xs) ys

/-- The candidate strings of a child in `Suggest`'s scan order:
`append(prepend(c.Aliases, c.Name), c.Suggested...)`. -/
def candidateNames (c : Command) : List String :=
  c.name :: c.aliases ++ c.suggested

/-- The effective threshold: the help's `MinDist` when positive, else
`DefaultMinDist` (src/cmd.go:143-149 and 349-355). -/
def Command.effMinDist (cmd : Command) : Nat :=
  if cmd.minDist = 0 then DefaultMinDist else cmd.minDist

/-- The nested scan of `Suggest` (src/cmd.go:151-157): the first child in
declaration order one of whose candidate names is within `minDist` of the
case-folded token. -/
def suggestFind (arg : List Char) (minDist : Nat) : List Command → Option Command
  | [] => none
  | c :: cs =>
    if (candidateNames c).any (fun nm => decide (ldist arg (lowerStr nm).data ≤ minDist)) then
      some c
    else suggestFind arg minDist cs

/-- `Command.Suggest` (src/cmd.go:137-159). -/
def Command.suggest (cmd : Command) (args : List String) : Option Err :=
  match args with
  | [] => none
  | arg0 :: _ =>
    let minDist := cmd.effMinDist
    let arg := (lowerStr arg0).data
    match suggestFind arg minDist cmd.commands with
    | some c => some (.suggestionError cmd.name arg0 c.name)
    | none => some (.suggestionMessage arg0 cmd.name)

/-- A completion candidate: `NewCompletion(cmd.Name, cmd.Usage)` (modelled
from the spec; the `Completion` constructor is not under `src/`). -/
structure Completion where
  name : String
  usage : String
deriving DecidableEq, Repr

/-- `addComp` (src/cmd.go:380-389): skip a command whose name was already
seen, else add its completion when the pass condition `b` holds.  The seen
set `m` is modelled as the list of seen names; the returned flag mirrors the
source's `ok` (move on to the next child). -/
def addComp (comps : List Completion) (c : Command) (m : List String) (b : Bool) :
    (List Completion × List String) × Bool :=
  if c.name ∈ m then ((comps, m), true)
  else if b then ((comps ++ [⟨c.name, c.usage⟩], m ++ [c.name]), true)
  else ((comps, m), false)

/-- The first `CompCommands` loop, per child (src/cmd.go:319-337): exact
name, exact alias, case-insensitive name, case-insensitive alias — stopping
at the first hit for this child. -/
def compChild1 (name lower : String) (st : List Completion × List String)
    (c : Command) : List Completion × List String :=
  let r1 := addComp st.1 c st.2 (decide (name = c.name))
  if r1.2 then r1.1 else
  let r2 := addComp r1.1.1 c r1.1.2 (c.aliases.any fun s => decide (name = s))
  if r2.2 then r2.1 else
  let r3 := addComp r2.1.1 c r2.1.2 (decide (lowerStr c.name = lower))
  if r3.2 then r3.1 else
  let r4 := addComp r3.1.1 c r3.1.2 (c.aliases.any fun s => decide (lower = lowerStr s))
  r4.1

/-- The second `CompCommands` loop, per child (src/cmd.go:338-348):
case-insensitive name/alias prefix match. -/
def compChild2 (lower : String) (st : List Completion × List String)
    (c : Command) : List Completion × List String :=
  let r1 := addComp st.1 c st.2 (strHasPre (lowerStr c.name) lower)
  if r1.2 then r1.1 else
  let r2 := addComp r1.1.1 c r1.1.2 (c.aliases.any fun s => strHasPre (lowerStr s) lower)
  r2.1

/-- The third `CompCommands` loop, per child (src/cmd.go:356-369): bounded
edit distance on name/alias. -/
def compChild3 (l : List Char) (minDist : Nat) (st : List Completion × List String)
    (c : Command) : List Completion × List String :=
  let r1 := addComp st.1 c st.2 (decide (ldist (lowerStr c.name).data l ≤ minDist))
  if r1.2 then r1.1 else
  let r2 := addComp r1.1.1 c r1.1.2
    (c.aliases.any fun s => decide (ldist (lowerStr s).data l ≤ minDist))
  r2.1

/-- `Command.CompCommands` (src/cmd.go:313-371): the three scans over the
children, threading the candidate list and the seen set.  The accompanying
directive is the constant `CompNoFileComp` and is omitted. -/
def Command.compCommands (cmd : Command) (name : String) : List Completion :=
  let lower := lowerStr name
  let st1 := cmd.commands.foldl (compChild1 name lower) ([], [])
  let st2 := cmd.commands.foldl (compChild2 lower) st1
  let minDist := cmd.effMinDist
  let st3 := if minDist ≠ 0 then cmd.commands.foldl (compChild3 lower.data minDist) st2
             else st2
  st3.1

/-- `strings.Cut(s, "=")` on the character list: split at the first `'='`,
`none` when absent. -/
def cutList : List Char → Option (List Char × List Char)
  | [] => none
  | c :: cs =>
    if c = '=' then some ([], cs)
    else match cutList cs with
      | some (a, b) => some (c :: a, b)
      | none => none

/-- `strings.Cut(s, "=")`: `(before, after, found)`. -/
def cutEq (s : String) : String × String × Bool :=
  match cutList s.data with
  | some (a, b) => (⟨a⟩, ⟨b⟩, true)
  | none => (s, "", false)

/-- `strings.TrimPrefix(s, "--")`. -/
def trimDashDash (s : String) : String :=
  if s.data.take 2 = ['-', '-'] then ⟨s.data.drop 2⟩ else s

/-- `parseLong` (src/cmd.go:1049-1067): parse a long flag token
(`--arg`, `--arg v`, `--arg k=v`, `--arg=`, `--arg=v`).  Returns the
remaining argument vector and the updated variable table. -/
def parseLong (cmd : Command) (s : String) (args : List String) (vars : Vars) :
    Except Err (List String × Vars) :=
  let cv := cutEq (trimDashDash s)
  let arg := cv.1
  let eqFound := cv.2.2
  match cmd.flagLookup arg with
  | none => .error (.flagError arg .errUnknownFlag)
  | some g =>
    match (if eqFound then .ok (cv.2.1, args)
           else if g.noArg then .ok (toBoolString g.Def, args)
           else match args with
             | a :: rest => .ok (a, rest)
             | [] => .error (.flagError arg .errMissingArgument) :
           Except Err (String × List String)) with
    | .error e => .error e
    | .ok (value, args) =>
      match vars.set g value true with
      | .error e => .error (.flagError arg e)
      | .ok vars => .ok (args, vars)

/-- The `parseShort` loop (src/cmd.go:1071-1103) over the remaining cluster
runes `v`.  The source's no-argument `name=value` branch re-slices
`v = v[len(v)-1:]` and the loop header then drops one more rune; both drops
are kept literally. -/
def parseShortGo (cmd : Command) (v : List Char) (args : List String) (vars : Vars) :
    Except Err (List String × Vars) :=
  match v with
  | [] => .ok (args, vars)
  | c :: rest =>
    let arg : String := ⟨[c]⟩
    match cmd.flagLookup arg with
    | none => .error (.flagError arg .errUnknownFlag)
    | some g =>
      if g.noArg then
        if (c :: rest).findIdx? (· == '=') = some 1 then
          match vars.set g ⟨(c :: rest).drop 2⟩ true with
          | .error e => .error (.flagError arg e)
          | .ok vars =>
            parseShortGo cmd (((c :: rest).drop ((c :: rest).length - 1)).drop 1) args vars
        else
          match vars.set g (toBoolString g.Def) true with
          | .error e => .error (.flagError arg e)
          | .ok vars => parseShortGo cmd rest args vars
      else if rest.length = 0 ∧ args.length = 0 then
        .error (.flagError arg .errMissingArgument)
      else if rest.length ≠ 0 then
        let v' := if (c :: rest).findIdx? (· == '=') = some 1 then rest else c :: rest
        match vars.set g ⟨v'.drop 1⟩ true with
        | .error e => .error (.flagError arg e)
        | .ok vars => .ok (args, vars)
      else
        match args with
        | a :: args2 =>
          match vars.set g a true with
          | .error e => .error (.flagError arg e)
          | .ok vars => .ok (args2, vars)
        | [] => .error (.flagError arg .errMissingArgument)
termination_by v.length
decreasing_by
  all_goals simp

/-- `parseShort` (src/cmd.go:1070): iterate the characters of the token
after the leading `-`. -/
def parseShort (cmd : Command) (s : String) (args : List String) (vars : Vars) :
    Except Err (List String × Vars) :=
  parseShortGo cmd (s.data.drop 1) args vars

/-- `parseLong` never lengthens the residual argument vector: it returns the
input vector or consumes its first token as a flag value. -/
theorem parseLong_length_le {cmd : Command} {s : String} {args : List String}
    {vars : Vars} {args' : List String} {vars' : Vars}
    (h : parseLong cmd s args vars = .ok (args', vars')) :
    args'.length ≤ args.length := by
  simp only [parseLong] at h
  split at h
  · simp at h
  · split at h
    · simp at h
    · rename_i heq
      split at h
      · simp at h
      · simp only [Except.ok.injEq, Prod.mk.injEq] at h
        obtain ⟨ha, hv⟩ := h
        subst ha
        split at heq
        · simp only [Except.ok.injEq, Prod.mk.injEq] at heq
          obtain ⟨h1, h2⟩ := heq
          exact h2 ▸ le_rfl
        · split at heq
          · simp only [Except.ok.injEq, Prod.mk.injEq] at heq
            obtain ⟨h1, h2⟩ := heq
            exact h2 ▸ le_rfl
          · cases args with
            | nil => simp at heq
            | cons a rest =>
              simp only [Except.ok.injEq, Prod.mk.injEq] at heq
              obtain ⟨h1, h2⟩ := heq
              simp [← h2]

/-- The `parseShort` loop never lengthens the residual argument vector. -/
theorem parseShortGo_length_le {cmd : Command} {v : List Char} {args : List String}
    {vars : Vars} {args' : List String} {vars' : Vars}
    (h : parseShortGo cmd v args vars = .ok (args', vars')) :
    args'.length ≤ args.length := by
  induction v, args, vars using parseShortGo.induct cmd generalizing args' vars'
  all_goals rw [parseShortGo] at h
  all_goals simp_all
  all_goals split at h
  all_goals simp_all

/-- `parseShort` never lengthens the residual argument vector. -/
theorem parseShort_length_le {cmd : Command} {s : String} {args : List String}
    {vars : Vars} {args' : List String} {vars' : Vars}
    (h : parseShort cmd s args vars = .ok (args', vars')) :
    args'.length ≤ args.length :=
  parseShortGo_length_le h

/-- The scanning loop of `parse` (src/cmd.go:1012-1046) with the positional
accumulator `v` explicit (the source's `var v []string`).  Sub-command
descent re-populates the child's defaults through `Populate`, whose
evaluation context is threaded explicitly here. -/
def parseGo (ctx : Context) (cmd : Command) (args v : List String) (vars : Vars) :
    Except Err (Command × List String × Vars) :=
  match args with
  | [] => .ok (cmd, v, vars)
  | s :: rest =>
    if s.length = 0 ∨ s.length = 1 ∨ s.data.head? ≠ some '-' then
      match (if v.isEmpty then cmd.command s else none) with
      | some c =>
        match c.populate ctx false false vars with
        | .error e => .error (.commandError c.name e)
        | .ok vars => parseGo ctx c rest v vars
      | none => parseGo ctx cmd rest (v ++ [s]) vars
    else if s = "--" then .ok (cmd, v ++ rest, vars)
    else if s.data.get? 1 = some '-' then
      match h : parseLong cmd s rest vars with
      | .error e => .error e
      | .ok (args', vars') => parseGo ctx cmd args' v vars'
    else
      match h : parseShort cmd s rest vars with
      | .error e => .error e
      | .ok (args', vars') => parseGo ctx cmd args' v vars'
termination_by args.length
decreasing_by
  · simp
  · simp
  · have hl := parseLong_length_le h; simp; omega
  · have hl := parseShort_length_le h; simp; omega

/-- `parse` (src/cmd.go:1012): the scanning loop started with an empty
positional accumulator. -/
def parse (ctx : Context) (cmd : Command) (args : List String) (vars : Vars) :
    Except Err (Command × List String × Vars) :=
  parseGo ctx cmd args [] vars

/-! ## Test fixtures shared by the witnesses -/

/-- A context whose default expansion is the identity. -/
def idContext : Context := ⟨fun s => .ok s⟩

/-- An empty variable table. -/
def emptyVars : Vars := ⟨[], []⟩

/-- A no-argument flag `verbose` with short name `v`. -/
def verboseFlag : Flag :=
  { typ := .stringT, name := "verbose", short := "v", aliases := [],
    Def := none, noArg := true, noArgDef := some "true", special := "" }

/-- An argument-taking flag `file` with short name `f`. -/
def fileFlag : Flag :=
  { typ := .stringT, name := "file", short := "f", aliases := [],
    Def := some "a.txt", noArg := false, noArgDef := none, special := "" }

/-- A root command with the two test flags and one `sub` child. -/
def demoCmd : Command :=
  .mk "demo" "" [] [] [verboseFlag, fileFlag] [.mk "sub" "" [] [] [] [] 0 ""] 0 ""

/-! ## Small step lemmas for the scanning loop -/

/-- The scanning loop on an exhausted vector returns the cursor command and
the collected positionals unchanged. -/
theorem parseGo_nil (ctx : Context) (cmd : Command) (v : List String) (vars : Vars) :
    parseGo ctx cmd [] v vars = .ok (cmd, v, vars) := by
  rw [parseGo]

/-- `cutList` finds nothing when `'='` does not occur. -/
theorem cutList_eq_none {l : List Char} (h : '=' ∉ l) : cutList l = none := by
  induction l with
  | nil => rfl
  | cons c cs ih =>
    have hc : ¬(c = '=') := fun e => h (by rw [e]; exact List.mem_cons_self _ _)
    rw [cutList, if_neg hc, ih (fun hm => h (List.mem_cons_of_mem c hm))]

/-- `strings.Cut` on a token without `=` returns the token, the empty
string, and `found = false`. -/
theorem cutEq_no_eq {s : String} (h : '=' ∉ s.data) : cutEq s = (s, "", false) := by
  rw [cutEq, cutList_eq_none h]

/-- Trimming the `--` of a long-flag token recovers the flag name part. -/
theorem trimDashDash_dashdash_append (name : String) :
    trimDashDash ("--" ++ name) = name := by
  have hd : ("--" ++ name).data = '-' :: '-' :: name.data := by
    simp [String.data_append]
  rw [trimDashDash, hd]
  simp

/-! ## Claim C2: the `--` terminator -/

/-- **C2.** When the scanner reaches a token equal to `--` at the top of
its loop (so not consumed as some flag's value), parsing stops at that
token and returns the current cursor command together with the positionals
already collected followed by all tokens after the `--` in original order;
none of the remaining tokens is interpreted as a flag or sub-command, and
the variable table is returned as it was. -/
theorem c2_terminator (ctx : Context) (cmd : Command) (rest v : List String)
    (vars : Vars) :
    parseGo ctx cmd ("--" :: rest) v vars = .ok (cmd, v ++ rest, vars) := by
  rw [parseGo,
    if_neg (by decide : ¬("--".length = 0 ∨ "--".length = 1 ∨ "--".data.head? ≠ some '-')),
    if_pos rfl]

/-! ## Claim C3: long no-argument flag without `=` -/

/-- **C3.** For a no-argument flag `g` of the cursor command, a long-flag
token naming `g` with no `=` assigns `g`'s no-argument default value — the
value `toBoolString g.Def` substituted when the flag is present without an
explicit argument — through an explicit `Vars.set` (`explicit = true`), and
consumes no token from the remaining argument vector (`args` is returned
unchanged). -/
theorem c3_long_noarg_default (cmd : Command) (name : String) (args : List String)
    (vars : Vars) (g : Flag) (hg : cmd.flagLookup name = some g)
    (hn : g.noArg = true) (he : '=' ∉ name.data) :
    parseLong cmd ("--" ++ name) args vars =
      (match vars.set g (toBoolString g.Def) true with
       | .error e => .error (.flagError name e)
       | .ok vars' => .ok (args, vars')) := by
  simp only [parseLong, trimDashDash_dashdash_append, cutEq_no_eq he, hg, hn]
  simp

/-- Witness for C3: the `verbose` flag of `demoCmd`, token `--verbose`. -/
theorem c3_long_noarg_default_witness :
    (demoCmd.flagLookup "verbose" = some verboseFlag ∧ verboseFlag.noArg = true ∧
      '=' ∉ "verbose".data) ∧
    parseLong demoCmd ("--" ++ "verbose") [] emptyVars =
      (match emptyVars.set verboseFlag (toBoolString verboseFlag.Def) true with
       | .error e => .error (.flagError "verbose" e)
       | .ok vars' => .ok ([], vars')) :=
  ⟨⟨rfl, rfl, by decide⟩,
    c3_long_noarg_default demoCmd "verbose" [] emptyVars verboseFlag rfl rfl (by decide)⟩

/-! ## Claim C4: missing argument for a trailing flag token -/

/-- **C4.** A trailing flag token referring to an argument-taking flag `g`
with no remaining token to consume fails with the missing-argument
condition decorated with the flag identity — for a final `--name` token and
for a short-flag cluster that ends at `g`'s short name.  The error return
carries no variable table, so no value (in particular not the empty string)
is assigned to `g` for that token. -/
theorem c4_missing_argument :
    (∀ (cmd : Command) (name : String) (vars : Vars) (g : Flag),
      cmd.flagLookup name = some g → g.noArg = false → '=' ∉ name.data →
      parseLong cmd ("--" ++ name) [] vars =
        .error (.flagError name .errMissingArgument)) ∧
    (∀ (cmd : Command) (c : Char) (vars : Vars) (g : Flag),
      cmd.flagLookup ⟨[c]⟩ = some g → g.noArg = false →
      parseShortGo cmd [c] [] vars =
        .error (.flagError ⟨[c]⟩ .errMissingArgument)) := by
  constructor
  · intro cmd name vars g hg hn he
    simp only [parseLong, trimDashDash_dashdash_append, cutEq_no_eq he, hg, hn]
    simp
  · intro cmd c vars g hg hn
    rw [parseShortGo]
    simp [hg, hn]

/-- Witness for C4: the `file` flag of `demoCmd`, tokens `--file` and `-f`,
with nothing following. -/
theorem c4_missing_argument_witness :
    (demoCmd.flagLookup "file" = some fileFlag ∧ fileFlag.noArg = false ∧
      '=' ∉ "file".data ∧ demoCmd.flagLookup ⟨['f']⟩ = some fileFlag) ∧
    parseLong demoCmd ("--" ++ "file") [] emptyVars =
      .error (.flagError "file" .errMissingArgument) ∧
    parseShortGo demoCmd ['f'] [] emptyVars =
      .error (.flagError ⟨['f']⟩ .errMissingArgument) :=
  ⟨⟨rfl, rfl, by decide, rfl⟩,
    c4_missing_argument.1 demoCmd "file" emptyVars fileFlag rfl rfl (by decide),
    c4_missing_argument.2 demoCmd 'f' emptyVars fileFlag rfl rfl⟩

/-! ## Claim C5: embedded short-flag value -/

/-- **C5.** For the input token `-fvalue`, where `f` is the short name of an
argument-taking flag `g` of the cursor command: the parser assigns the
string `"value"` to `g` through an explicit `Vars.set`, consumes no
following token, and interprets no character after the value as a further
flag — the cluster ends with the value and `args` is returned unchanged. -/
theorem c5_embedded_short_value (cmd : Command) (args : List String) (vars : Vars)
    (g : Flag) (hg : cmd.flagLookup "f" = some g) (hn : g.noArg = false) :
    parseShort cmd "-fvalue" args vars =
      (match vars.set g "value" true with
       | .error e => .error (.flagError "f" e)
       | .ok vars' => .ok (args, vars')) := by
  have hg2 : cmd.flagLookup ⟨['f']⟩ = some g := hg
  rw [parseShort]
  rw [show "-fvalue".data.drop 1 = ['f', 'v', 'a', 'l', 'u', 'e'] from rfl]
  rw [parseShortGo]
  simp [hg2, hn]

/-- Witness for C5: the `file` flag of `demoCmd` via its short name `f`. -/
theorem c5_embedded_short_value_witness :
    (demoCmd.flagLookup "f" = some fileFlag ∧ fileFlag.noArg = false) ∧
    parseShort demoCmd "-fvalue" ["rest"] emptyVars =
      (match emptyVars.set fileFlag "value" true with
       | .error e => .error (.flagError "f" e)
       | .ok vars' => .ok (["rest"], vars')) :=
  ⟨⟨rfl, rfl⟩, c5_embedded_short_value demoCmd ["rest"] emptyVars fileFlag rfl rfl⟩

/-! ## Claim C1: positionals block later sub-command descent -/

/-- `parseLong` either leaves the residual argument vector intact or
consumes exactly its head as the flag's value. -/
theorem parseLong_args_cases {cmd : Command} {s : String} {args : List String}
    {vars : Vars} {args' : List String} {vars' : Vars}
    (h : parseLong cmd s args vars = .ok (args', vars')) :
    args' = args ∨ args' = args.tail := by
  simp only [parseLong] at h
  split at h
  · simp at h
  · split at h
    · simp at h
    · rename_i heq
      split at h
      · simp at h
      · simp only [Except.ok.injEq, Prod.mk.injEq] at h
        obtain ⟨ha, hv⟩ := h
        subst ha
        split at heq
        · simp only [Except.ok.injEq, Prod.mk.injEq] at heq
          exact Or.inl heq.2.symm
        · split at heq
          · simp only [Except.ok.injEq, Prod.mk.injEq] at heq
            exact Or.inl heq.2.symm
          · cases args with
            | nil => simp at heq
            | cons a rest =>
              simp only [Except.ok.injEq, Prod.mk.injEq] at heq
              exact Or.inr (by rw [← heq.2]; simp)

/-- The `parseShort` loop either leaves the residual argument vector intact
or consumes exactly its head. -/
theorem parseShortGo_args_cases {cmd : Command} {v : List Char} {args : List String}
    {vars : Vars} {args' : List String} {vars' : Vars}
    (h : parseShortGo cmd v args vars = .ok (args', vars')) :
    args' = args ∨ args' = args.tail := by
  induction v, args, vars using parseShortGo.induct cmd generalizing args' vars'
  all_goals rw [parseShortGo] at h
  all_goals simp_all
  all_goals split at h
  all_goals simp_all

/-- `parseShort` either leaves the residual argument vector intact or
consumes exactly its head. -/
theorem parseShort_args_cases {cmd : Command} {s : String} {args : List String}
    {vars : Vars} {args' : List String} {vars' : Vars}
    (h : parseShort cmd s args vars = .ok (args', vars')) :
    args' = args ∨ args' = args.tail :=
  parseShortGo_args_cases h

/-- **C1.** During a single parse invocation over any command tree, argument
vector and variable table: from any loop state whose positional accumulator
is already non-empty, a successful parse never changes the cursor command by
sub-command descent — the returned command is the cursor itself — and every
later bare token is appended to the positional list: the returned
positionals are the accumulator followed by a selection of later tokens in
their original order. -/
theorem c1_positionals_block_subcommands (ctx : Context) (cmd : Command)
    (args v : List String) (vars : Vars) :
    ∀ (cmd' : Command) (pos : List String) (vars' : Vars), v ≠ [] →
      parseGo ctx cmd args v vars = .ok (cmd', pos, vars') →
      cmd' = cmd ∧ ∃ extra, pos = v ++ extra ∧ extra.Sublist args := by
  induction cmd, args, v, vars using parseGo.induct ctx with
  | case1 cmd v vars =>
    intro cmd' pos vars' hv h
    rw [parseGo_nil] at h
    simp only [Except.ok.injEq, Prod.mk.injEq] at h
    exact ⟨h.1.symm, [], by simp [h.2.1], List.nil_sublist _⟩
  | case2 cmd v vars n ns hbare c hif e hpop =>
    intro cmd' pos vars' hv h
    rw [dif_neg (by simp [hv] : ¬(v.isEmpty = true))] at hif
    simp at hif
  | case3 cmd v vars n ns hbare c hif vars₁ hpop ih =>
    intro cmd' pos vars' hv h
    rw [dif_neg (by simp [hv] : ¬(v.isEmpty = true))] at hif
    simp at hif
  | case4 cmd v vars n ns hbare hif ih =>
    intro cmd' pos vars' hv h
    rw [parseGo, if_pos hbare,
      if_neg (by simp [hv] : ¬(v.isEmpty = true))] at h
    obtain ⟨hcmd, extra, hpos, hsub⟩ := ih cmd' pos vars' (by simp) h
    exact ⟨hcmd, n :: extra, by rw [hpos]; simp, List.Sublist.cons₂ n hsub⟩
  | case5 cmd v vars ns hbare =>
    intro cmd' pos vars' hv h
    rw [parseGo, if_neg hbare, if_pos rfl] at h
    simp only [Except.ok.injEq, Prod.mk.injEq] at h
    exact ⟨h.1.symm, ns, h.2.1.symm, List.sublist_cons_self "--" ns⟩
  | case6 cmd v vars n ns hbare hno2 hget e hlong =>
    intro cmd' pos vars' hv h
    rw [parseGo, if_neg hbare, if_neg hno2, if_pos hget, hlong] at h
    simp at h
  | case7 cmd v vars n ns hbare hno2 hget args₁ vars₁ hlong ih =>
    intro cmd' pos vars' hv h
    rw [parseGo, if_neg hbare, if_neg hno2, if_pos hget, hlong] at h
    obtain ⟨hcmd, extra, hpos, hsub⟩ := ih cmd' pos vars' hv h
    refine ⟨hcmd, extra, hpos, ?_⟩
    rcases parseLong_args_cases hlong with h1 | h1 <;> rw [h1] at hsub
    · exact hsub.trans (List.sublist_cons_self n ns)
    · exact hsub.trans ((List.tail_sublist ns).trans (List.sublist_cons_self n ns))
  | case8 cmd v vars n ns hbare hno2 hget e hshort =>
    intro cmd' pos vars' hv h
    rw [parseGo, if_neg hbare, if_neg hno2, if_neg hget, hshort] at h
    simp at h
  | case9 cmd v vars n ns hbare hno2 hget args₁ vars₁ hshort ih =>
    intro cmd' pos vars' hv h
    rw [parseGo, if_neg hbare, if_neg hno2, if_neg hget, hshort] at h
    obtain ⟨hcmd, extra, hpos, hsub⟩ := ih cmd' pos vars' hv h
    refine ⟨hcmd, extra, hpos, ?_⟩
    rcases parseShort_args_cases hshort with h1 | h1 <;> rw [h1] at hsub
    · exact hsub.trans (List.sublist_cons_self n ns)
    · exact hsub.trans ((List.tail_sublist ns).trans (List.sublist_cons_self n ns))

/-- Witness for C1: with positional `"p"` already collected, the bare token
`"sub"` is appended instead of resolving to `demoCmd`'s child `sub`. -/
theorem c1_positionals_block_subcommands_witness :
    (["p"] : List String) ≠ [] ∧
    parseGo idContext demoCmd ["sub"] ["p"] emptyVars =
      .ok (demoCmd, ["p", "sub"], emptyVars) ∧
    demoCmd = demoCmd ∧
      ∃ extra, ["p", "sub"] = ["p"] ++ extra ∧ extra.Sublist ["sub"] := by
  have hstep : parseGo idContext demoCmd ["sub"] ["p"] emptyVars =
      .ok (demoCmd, ["p", "sub"], emptyVars) := by
    rw [parseGo,
      if_pos (by decide : "sub".length = 0 ∨ "sub".length = 1 ∨ "sub".data.head? ≠ some '-')]
    simp [parseGo_nil]
  exact ⟨by decide, hstep,
    c1_positionals_block_subcommands idContext demoCmd ["sub"] ["p"] emptyVars
      demoCmd ["p", "sub"] emptyVars (by decide) hstep⟩

/-! ## Claim C10: default population never fires a hook -/

/-- `Vars.set` on a non-hook flag leaves the hook-invocation log unchanged. -/
theorem Vars.set_hookRuns {vars : Vars} {g : Flag} {s : String} {explicit : Bool}
    {vars' : Vars} (hty : ¬(g.typ = .hookT))
    (h : vars.set g s explicit = .ok vars') : vars'.hookRuns = vars.hookRuns := by
  rw [Vars.set, if_neg hty] at h
  repeat' split at h
  all_goals cases h <;> rfl

/-- The population loop never changes the hook-invocation log, for any
`all` and `overwrite`. -/
theorem populateGo_hookRuns (ctx : Context) (all overwrite : Bool) :
    ∀ (gs : List Flag) (vars vars' : Vars),
      populateGo ctx all overwrite gs vars = .ok vars' →
      vars'.hookRuns = vars.hookRuns := by
  intro gs
  induction gs with
  | nil =>
    intro vars vars' h
    rw [populateGo] at h
    cases h
    rfl
  | cons g gs ih =>
    intro vars vars' h
    simp only [populateGo] at h
    have hruns : (if (lookupEntry vars.entries g.name).isSome && overwrite then
        { vars with entries := eraseEntry vars.entries g.name } else vars).hookRuns =
        vars.hookRuns := by split <;> rfl
    split at h
    · exact (ih _ _ h).trans hruns
    · rename_i hskip
      split at h
      · simp at h
      · split at h
        · simp at h
        · rename_i value hexp vars₁ hset
          have hty : ¬(g.typ = .hookT) := fun e => hskip (Or.inl e)
          exact (ih _ _ h).trans ((Vars.set_hookRuns hty hset).trans hruns)

/-- **C10.** For every command, context, variable table, and any values of
`all` and `overwrite`: `Populate` never performs a `Vars.set` of a flag
whose type is the hook type (`Populate`'s switch skips hook flags before
reaching the `Set` call), so a hook flag's side-effecting action is never
invoked during default population — the hook-invocation log is unchanged;
only an explicit command-line assignment can trigger it. -/
theorem c10_populate_never_fires_hooks (ctx : Context) (cmd : Command)
    (all overwrite : Bool) (vars vars' : Vars)
    (h : cmd.populate ctx all overwrite vars = .ok vars') :
    vars'.hookRuns = vars.hookRuns :=
  populateGo_hookRuns ctx all overwrite cmd.flags vars vars' h

/-- A hook flag, as `NewHelpFor` installs (`Type = HookT`). -/
def helpHookFlag : Flag :=
  { typ := .hookT, name := "help", short := "h", aliases := [],
    Def := some "act", noArg := true, noArgDef := some "", special := "" }

/-- A command carrying a hook flag and an ordinary defaulted flag. -/
def hookCmd : Command := .mk "hooky" "" [] [] [helpHookFlag, fileFlag] [] 0 ""

/-- Witness for C10: populating `hookCmd` with `all` and `overwrite` set
fills `file`'s default but never runs the `help` hook. -/
theorem c10_populate_never_fires_hooks_witness :
    hookCmd.populate idContext true true emptyVars =
      .ok ⟨[("file", ⟨["a.txt"], false⟩)], []⟩ ∧
    (⟨[("file", ⟨["a.txt"], false⟩)], []⟩ : Vars).hookRuns = emptyVars.hookRuns :=
  ⟨rfl, c10_populate_never_fires_hooks idContext hookCmd true true emptyVars _ rfl⟩

/-! ## Claim C9: default population without overwrite is idempotent -/

/-- No explicit (command-line) assignment has been made into the table. -/
def NonExplicit (vars : Vars) : Prop :=
  ∀ p ∈ vars.entries, p.2.explicitSet = false

/-- The effective writes of default population with `all = true` and no
forced overwrite: for each non-hook flag in declaration order, its expanded
default (the empty string for a `nil` default) as a fresh non-explicit
entry.  Fails exactly where the population loop fails. -/
def effWrites (ctx : Context) : List Flag → Except Err (List (String × VarEntry))
  | [] => .ok []
  | g :: gs =>
    if g.typ = .hookT then effWrites ctx gs
    else
      match (match g.Def with | some d => ctx.expand d | none => .ok "") with
      | .error e => .error e
      | .ok value =>
        if g.typ.parses value = false then
          .error (.populateError g.name value (.invalidValue g.name value))
        else
          match effWrites ctx gs with
          | .error e => .error e
          | .ok ws => .ok ((g.name, ⟨[value], false⟩) :: ws)

/-- Apply a list of writes, in order. -/
def applyWrites (es ws : List (String × VarEntry)) : List (String × VarEntry) :=
  ws.foldl (fun acc p => setEntry acc p.1 p.2) es

/-- The last write a write list makes to a key, if any. -/
def lastWrite (ws : List (String × VarEntry)) (k : String) : Option VarEntry :=
  match ws with
  | [] => none
  | (k₀, e₀) :: ws =>
    match lastWrite ws k with
    | some e => some e
    | none => if k = k₀ then some e₀ else none

/-- Looking a key up after `setEntry` sees the new value at that key and is
unchanged elsewhere. -/
theorem lookupEntry_setEntry (es : List (String × VarEntry)) (k : String)
    (e : VarEntry) (k' : String) :
    lookupEntry (setEntry es k e) k' = if k' = k then some e else lookupEntry es k' := by
  induction es with
  | nil =>
    by_cases h : k' = k
    · subst h
      simp [setEntry, lookupEntry]
    · have h' : ¬(k = k') := fun hh => h hh.symm
      simp [setEntry, lookupEntry, h, h']
  | cons p es ih =>
    obtain ⟨k₀, e₀⟩ := p
    by_cases h0 : k₀ = k
    · subst h0
      by_cases h : k' = k₀
      · subst h
        simp [setEntry, lookupEntry]
      · have h' : ¬(k₀ = k') := fun hh => h hh.symm
        simp [setEntry, lookupEntry, h, h']
    · by_cases h2 : k' = k
      · subst h2
        simp [setEntry, lookupEntry, h0, ih]
      · by_cases h1 : k₀ = k'
        · simp [setEntry, lookupEntry, h0, h1, h2]
        · simp [setEntry, lookupEntry, h0, h1, h2, ih]

/-- Everything in `setEntry es k e` is either from `es` or the new pair. -/
theorem mem_setEntry {es : List (String × VarEntry)} {k : String} {e : VarEntry}
    {p : String × VarEntry} (hp : p ∈ setEntry es k e) : p ∈ es ∨ p = (k, e) := by
  induction es with
  | nil =>
    simp only [setEntry, List.mem_singleton] at hp
    exact Or.inr hp
  | cons q es ih =>
    obtain ⟨k₀, e₀⟩ := q
    simp only [setEntry] at hp
    split at hp
    · rcases List.mem_cons.mp hp with h | h
      · exact Or.inr h
      · exact Or.inl (List.mem_cons_of_mem _ h)
    · rcases List.mem_cons.mp hp with h | h
      · exact Or.inl (h ▸ List.mem_cons_self _ _)
      · rcases ih h with h' | h'
        · exact Or.inl (List.mem_cons_of_mem _ h')
        · exact Or.inr h'

/-- A looked-up entry of a non-explicit table is non-explicit. -/
theorem NonExplicit.lookup {vars : Vars} (h : NonExplicit vars) {k : String}
    {e : VarEntry} (hl : lookupEntry vars.entries k = some e) :
    e.explicitSet = false := by
  obtain ⟨es, hr⟩ := vars
  simp only [NonExplicit] at h
  dsimp only at h hl
  induction es with
  | nil => cases hl
  | cons p es ih =>
    obtain ⟨k₀, e₀⟩ := p
    rw [lookupEntry] at hl
    split at hl
    · cases hl
      exact h _ (List.mem_cons_self _ _)
    · exact ih (fun q hq => h q (List.mem_cons_of_mem _ hq)) hl

/-- `Vars.set` of a non-hook, well-coercing default on a non-explicit table
is a plain store of the fresh non-explicit entry. -/
theorem Vars.set_default {vars : Vars} {g : Flag} {value : String}
    (hty : ¬(g.typ = .hookT)) (hp : ¬(g.typ.parses value = false))
    (hne : NonExplicit vars) :
    vars.set g value false =
      .ok ⟨setEntry vars.entries g.name ⟨[value], false⟩, vars.hookRuns⟩ := by
  rw [Vars.set, if_neg hty, if_neg hp]
  rw [if_neg (by simp : ¬(false = true))]
  cases hl : lookupEntry vars.entries g.name with
  | none => rfl
  | some e =>
    have he : e.explicitSet = false := hne.lookup hl
    simp [he]

/-- The population loop with `all = true`, `overwrite = false` applies the
effective writes to a non-explicit table and leaves the hook log alone. -/
theorem populateGo_eq_effWrites (ctx : Context) (gs : List Flag) :
    ∀ (vars : Vars), NonExplicit vars →
      populateGo ctx true false gs vars =
        (match effWrites ctx gs with
         | .error e => .error e
         | .ok ws => .ok ⟨applyWrites vars.entries ws, vars.hookRuns⟩) := by
  induction gs with
  | nil => intro vars _; rw [populateGo, effWrites]; rfl
  | cons g gs ih =>
    intro vars hne
    simp only [populateGo, effWrites, Bool.and_false, Bool.false_eq_true, if_false]
    by_cases hty : g.typ = .hookT
    · rw [if_pos (Or.inl hty), if_pos hty, ih vars hne]
    · rw [if_neg (by simp [hty]), if_neg hty]
      cases hexp : (match g.Def with | some d => ctx.expand d | none => .ok "") with
      | error e => rfl
      | ok value =>
        dsimp only
        by_cases hp : g.typ.parses value = false
        · rw [if_pos hp]
          rw [Vars.set, if_neg hty, if_pos hp]
        · rw [if_neg hp, Vars.set_default hty hp hne]
          have hne' : NonExplicit ⟨setEntry vars.entries g.name ⟨[value], false⟩,
              vars.hookRuns⟩ := by
            intro p hpm
            rcases mem_setEntry hpm with h | h
            · exact hne p h
            · rw [h]
          dsimp only
          rw [ih _ hne']
          cases effWrites ctx gs <;> rfl

/-- Looking up a key after applying writes sees the last write to that key,
else the base table. -/
theorem lookupEntry_applyWrites (ws : List (String × VarEntry)) :
    ∀ (es : List (String × VarEntry)) (k : String),
      lookupEntry (applyWrites es ws) k =
        (match lastWrite ws k with
         | some e => some e
         | none => lookupEntry es k) := by
  induction ws with
  | nil => intro es k; rfl
  | cons w ws ih =>
    intro es k
    obtain ⟨k₀, e₀⟩ := w
    show lookupEntry (applyWrites (setEntry es k₀ e₀) ws) k = _
    rw [ih]
    cases hlw : lastWrite ws k with
    | some e => simp only [lastWrite, hlw]
    | none =>
      simp only [lastWrite, hlw]
      rw [lookupEntry_setEntry]
      split <;> rfl

/-- The entries written by `effWrites` are all non-explicit. -/
theorem effWrites_nonExplicit {ctx : Context} {gs : List Flag}
    {ws : List (String × VarEntry)} (h : effWrites ctx gs = .ok ws) :
    ∀ p ∈ ws, p.2.explicitSet = false := by
  induction gs generalizing ws with
  | nil => rw [effWrites] at h; cases h; intro p hp; cases hp
  | cons g gs ih =>
    rw [effWrites] at h
    split at h
    · exact ih h
    · split at h
      · cases h
      · split at h
        · cases h
        · split at h
          · cases h
          · rename_i ws₀ hws
            cases h
            intro p hp
            rcases List.mem_cons.mp hp with h' | h'
            · rw [h']
            · exact ih hws p h'

/-- Applying non-explicit writes preserves non-explicitness. -/
theorem applyWrites_nonExplicit {es ws : List (String × VarEntry)}
    (hes : ∀ p ∈ es, p.2.explicitSet = false)
    (hws : ∀ p ∈ ws, p.2.explicitSet = false) :
    ∀ p ∈ applyWrites es ws, p.2.explicitSet = false := by
  induction ws generalizing es with
  | nil => exact hes
  | cons w ws ih =>
    intro p hp
    refine ih ?_ (fun q hq => hws q (List.mem_cons_of_mem _ hq)) p hp
    intro q hq
    rcases mem_setEntry hq with h | h
    · exact hes q h
    · rw [h]
      exact hws w (List.mem_cons_self _ _)

/-- **C9.** For every command, context and variable table into which no
explicit assignment has been made: default population with `all = true` and
`overwrite = false` is idempotent on the table — a second call succeeds and
produces the same contents (the same value at every key, and the same hook
log) as the first. -/
theorem c9_populate_idempotent (ctx : Context) (cmd : Command) (vars vars₁ : Vars)
    (h0 : NonExplicit vars)
    (h1 : cmd.populate ctx true false vars = .ok vars₁) :
    ∃ vars₂, cmd.populate ctx true false vars₁ = .ok vars₂ ∧
      (∀ k, lookupEntry vars₂.entries k = lookupEntry vars₁.entries k) ∧
      vars₂.hookRuns = vars₁.hookRuns := by
  rw [Command.populate, populateGo_eq_effWrites ctx cmd.flags vars h0] at h1
  cases hew : effWrites ctx cmd.flags with
  | error e => rw [hew] at h1; cases h1
  | ok ws =>
    rw [hew] at h1
    simp only [Except.ok.injEq] at h1
    have hne1 : NonExplicit vars₁ := by
      rw [← h1]
      intro p hp
      exact applyWrites_nonExplicit h0 (effWrites_nonExplicit hew) p hp
    refine ⟨⟨applyWrites vars₁.entries ws, vars₁.hookRuns⟩, ?_, ?_, rfl⟩
    · rw [Command.populate, populateGo_eq_effWrites ctx cmd.flags vars₁ hne1, hew]
    · intro k
      have hv1e : vars₁.entries = applyWrites vars.entries ws := by rw [← h1]
      dsimp only
      rw [lookupEntry_applyWrites, hv1e, lookupEntry_applyWrites]
      cases lastWrite ws k <;> rfl

/-- Witness for C9: populating `demoCmd` twice from the empty table. -/
theorem c9_populate_idempotent_witness :
    NonExplicit emptyVars ∧
    demoCmd.populate idContext true false emptyVars =
      .ok ⟨[("verbose", ⟨[""], false⟩), ("file", ⟨["a.txt"], false⟩)], []⟩ ∧
    ∃ vars₂, demoCmd.populate idContext true false
        ⟨[("verbose", ⟨[""], false⟩), ("file", ⟨["a.txt"], false⟩)], []⟩ = .ok vars₂ ∧
      (∀ k, lookupEntry vars₂.entries k =
        lookupEntry [("verbose", ⟨[""], false⟩), ("file", ⟨["a.txt"], false⟩)] k) ∧
      vars₂.hookRuns = [] :=
  ⟨fun p hp => absurd hp (by simp [emptyVars]), rfl,
    c9_populate_idempotent idContext demoCmd emptyVars
      ⟨[("verbose", ⟨[""], false⟩), ("file", ⟨["a.txt"], false⟩)], []⟩
      (fun p hp => absurd hp (by simp [emptyVars])) rfl⟩

/-! ## Claim C8: completion candidate passes -/

/-- `st'` extends `st` by appended candidates whose names extend the seen
list in step. -/
def CompExtends (st st' : List Completion × List String) : Prop :=
  ∃ d, st'.1 = st.1 ++ d ∧ st'.2 = st.2 ++ d.map Completion.name

/-- The completion-scan invariant: the seen list is exactly the names of
the collected candidates, without duplicates. -/
def CompInv (st : List Completion × List String) : Prop :=
  st.2 = st.1.map Completion.name ∧ st.2.Nodup

/-- `CompExtends` is reflexive. -/
theorem CompExtends.refl' (st : List Completion × List String) : CompExtends st st :=
  ⟨[], by simp, by simp⟩

/-- `CompExtends` composes. -/
theorem CompExtends.trans {a b c : List Completion × List String}
    (h1 : CompExtends a b) (h2 : CompExtends b c) : CompExtends a c := by
  obtain ⟨d1, hb1, hb2⟩ := h1
  obtain ⟨d2, hc1, hc2⟩ := h2
  exact ⟨d1 ++ d2, by rw [hc1, hb1, List.append_assoc],
    by rw [hc2, hb2, List.map_append, List.append_assoc]⟩

/-- One `addComp` from an invariant state appends at most one fresh
candidate and preserves the invariant. -/
theorem addComp_chain {st : List Completion × List String} (c : Command) (b : Bool)
    (hinv : CompInv st) :
    CompExtends st (addComp st.1 c st.2 b).1 ∧ CompInv (addComp st.1 c st.2 b).1 := by
  rw [addComp]
  by_cases hm : c.name ∈ st.2
  · rw [if_pos hm]
    exact ⟨CompExtends.refl' _, hinv⟩
  · rw [if_neg hm]
    by_cases hb : b = true
    · rw [if_pos hb]
      refine ⟨⟨[⟨c.name, c.usage⟩], rfl, by simp⟩, ?_, ?_⟩
      · dsimp only
        rw [hinv.1]
        simp
      · dsimp only
        rw [List.nodup_append]
        refine ⟨hinv.2, List.nodup_singleton _, ?_⟩
        intro x hx hx'
        rw [List.mem_singleton] at hx'
        exact hm (hx' ▸ hx)
    · rw [if_neg hb]
      exact ⟨CompExtends.refl' _, hinv⟩

/-- The first completion scan preserves the invariant per child. -/
theorem compChild1_spec (name lower : String) (st : List Completion × List String)
    (c : Command) (hinv : CompInv st) :
    CompExtends st (compChild1 name lower st c) ∧ CompInv (compChild1 name lower st c) := by
  have h1 := addComp_chain c (decide (name = c.name)) hinv
  have h2 := addComp_chain c (c.aliases.any fun s => decide (name = s)) h1.2
  have h3 := addComp_chain c (decide (lowerStr c.name = lower)) h2.2
  have h4 := addComp_chain c (c.aliases.any fun s => decide (lower = lowerStr s)) h3.2
  simp only [compChild1]
  split
  · exact h1
  · split
    · exact ⟨h1.1.trans h2.1, h2.2⟩
    · split
      · exact ⟨h1.1.trans (h2.1.trans h3.1), h3.2⟩
      · exact ⟨h1.1.trans (h2.1.trans (h3.1.trans h4.1)), h4.2⟩

/-- The prefix scan preserves the invariant per child. -/
theorem compChild2_spec (lower : String) (st : List Completion × List String)
    (c : Command) (hinv : CompInv st) :
    CompExtends st (compChild2 lower st c) ∧ CompInv (compChild2 lower st c) := by
  have h1 := addComp_chain c (strHasPre (lowerStr c.name) lower) hinv
  have h2 := addComp_chain c (c.aliases.any fun s => strHasPre (lowerStr s) lower) h1.2
  simp only [compChild2]
  split
  · exact h1
  · exact ⟨h1.1.trans h2.1, h2.2⟩

/-- The distance scan preserves the invariant per child. -/
theorem compChild3_spec (l : List Char) (minDist : Nat)
    (st : List Completion × List String) (c : Command) (hinv : CompInv st) :
    CompExtends st (compChild3 l minDist st c) ∧ CompInv (compChild3 l minDist st c) := by
  have h1 := addComp_chain c (decide (ldist (lowerStr c.name).data l ≤ minDist)) hinv
  have h2 := addComp_chain c
    (c.aliases.any fun s => decide (ldist (lowerStr s).data l ≤ minDist)) h1.2
  simp only [compChild3]
  split
  · exact h1
  · exact ⟨h1.1.trans h2.1, h2.2⟩

/-- Folding an invariant-preserving scan over the children extends the
state and preserves the invariant. -/
theorem foldl_comp_spec
    (f : (List Completion × List String) → Command → (List Completion × List String))
    (hf : ∀ st c, CompInv st → CompExtends st (f st c) ∧ CompInv (f st c)) :
    ∀ (cs : List Command) (st : List Completion × List String), CompInv st →
      CompExtends st (cs.foldl f st) ∧ CompInv (cs.foldl f st) := by
  intro cs
  induction cs with
  | nil => intro st h; exact ⟨CompExtends.refl' st, h⟩
  | cons c cs ih =>
    intro st h
    rw [List.foldl_cons]
    obtain ⟨he, hi⟩ := hf st c h
    obtain ⟨he', hi'⟩ := ih (f st c) hi
    exact ⟨he.trans he', hi'⟩

/-- **C8 (amended).** `CompCommands` produces its candidates in three
deduplicated scan groups in strict order: (1) one pass over the children
checking, per child in declaration order, exact case-sensitive name/alias
and then exact case-insensitive name/alias (the exact and case-insensitive
checks interleave per child inside this one pass), (2) case-insensitive
prefix match, (3) edit distance within the threshold.  Each addition
deduplicates by command name against a seen set — the result's names are
distinct — and every candidate contributed by an earlier group precedes
every candidate first contributed by a later group. -/
theorem c8_amended_comp_groups (cmd : Command) (tok : String) :
    ((cmd.compCommands tok).map Completion.name).Nodup ∧
    ∃ l₁ l₂ l₃, cmd.compCommands tok = l₁ ++ l₂ ++ l₃ ∧
      (cmd.commands.foldl (compChild1 tok (lowerStr tok)) ([], [])).1 = l₁ ∧
      (cmd.commands.foldl (compChild2 (lowerStr tok))
        (cmd.commands.foldl (compChild1 tok (lowerStr tok)) ([], []))).1 = l₁ ++ l₂ := by
  have hinv0 : CompInv (([], []) : List Completion × List String) :=
    ⟨rfl, List.nodup_nil⟩
  obtain ⟨he1, hi1⟩ := foldl_comp_spec _ (compChild1_spec tok (lowerStr tok))
    cmd.commands ([], []) hinv0
  obtain ⟨he2, hi2⟩ := foldl_comp_spec _ (compChild2_spec (lowerStr tok))
    cmd.commands _ hi1
  have hgroup3 : CompExtends (cmd.commands.foldl (compChild2 (lowerStr tok))
        (cmd.commands.foldl (compChild1 tok (lowerStr tok)) ([], [])))
      (if cmd.effMinDist ≠ 0 then
        cmd.commands.foldl (compChild3 (lowerStr tok).data cmd.effMinDist)
          (cmd.commands.foldl (compChild2 (lowerStr tok))
            (cmd.commands.foldl (compChild1 tok (lowerStr tok)) ([], [])))
      else
        cmd.commands.foldl (compChild2 (lowerStr tok))
          (cmd.commands.foldl (compChild1 tok (lowerStr tok)) ([], []))) ∧ CompInv
      (if cmd.effMinDist ≠ 0 then
        cmd.commands.foldl (compChild3 (lowerStr tok).data cmd.effMinDist)
          (cmd.commands.foldl (compChild2 (lowerStr tok))
            (cmd.commands.foldl (compChild1 tok (lowerStr tok)) ([], [])))
      else
        cmd.commands.foldl (compChild2 (lowerStr tok))
          (cmd.commands.foldl (compChild1 tok (lowerStr tok)) ([], []))) := by
    split
    · exact foldl_comp_spec _ (compChild3_spec (lowerStr tok).data cmd.effMinDist)
        cmd.commands _ hi2
    · exact ⟨CompExtends.refl' _, hi2⟩
  obtain ⟨he3, hi3⟩ := hgroup3
  have hcc : cmd.compCommands tok =
      (if cmd.effMinDist ≠ 0 then
        cmd.commands.foldl (compChild3 (lowerStr tok).data cmd.effMinDist)
          (cmd.commands.foldl (compChild2 (lowerStr tok))
            (cmd.commands.foldl (compChild1 tok (lowerStr tok)) ([], [])))
      else
        cmd.commands.foldl (compChild2 (lowerStr tok))
          (cmd.commands.foldl (compChild1 tok (lowerStr tok)) ([], []))).1 := rfl
  constructor
  · rw [hcc, ← hi3.1]
    exact hi3.2
  · obtain ⟨d2, hd2a, hd2b⟩ := he2
    obtain ⟨d3, hd3a, hd3b⟩ := he3
    refine ⟨(cmd.commands.foldl (compChild1 tok (lowerStr tok)) ([], [])).1, d2, d3,
      ?_, rfl, hd2a⟩
    rw [hcc, hd3a, hd2a]

/-- The command refuting C8's strict pass-1-before-pass-2 ordering: two
children named `B` and `b`, in that declaration order. -/
def comp8Cmd : Command :=
  .mk "root" "" [] [] []
    [.mk "B" "upper" [] [] [] [] 0 "", .mk "b" "lower" [] [] [] [] 0 ""] 0 ""

/-- The claim's pass-1 matches: children whose name or an alias equals the
token case-sensitively. -/
def exactMatchNames (cmd : Command) (tok : String) : List String :=
  (cmd.commands.filter fun c => decide (tok = c.name ∨ tok ∈ c.aliases)).map
    Command.name

/-- The claim's pass-2 matches: children matching the token
case-insensitively by name or alias. -/
def ciMatchNames (cmd : Command) (tok : String) : List String :=
  (cmd.commands.filter fun c => decide (lowerStr c.name = lowerStr tok ∨
    ∃ a ∈ c.aliases, lowerStr tok = lowerStr a)).map Command.name

/-- **C8 counterexample.** On `comp8Cmd` with token `"b"`: child `b` is a
pass-1 (exact) match and child `B` only a pass-2 (case-insensitive) match,
so under the claimed ordering every pass-1 candidate (`b`) would precede
every pass-2-only candidate (`B`); but `CompCommands` returns `["B", "b"]`
— the source's first loop runs the exact and case-insensitive checks per
child in a single pass over the children. -/
theorem c8_counterexample_pass_order :
    (comp8Cmd.compCommands "b").map Completion.name = ["B", "b"] ∧
    exactMatchNames comp8Cmd "b" = ["b"] ∧
    ciMatchNames comp8Cmd "b" = ["B", "b"] ∧
    (comp8Cmd.compCommands "b").map Completion.name ≠ ["b", "B"] := by
  refine ⟨by decide, by decide, by decide, by decide⟩

/-! ## Claim C6: chained lookup is greedy and total -/

/-- Strict resolution of a descendant path: resolve every name against the
cursor, failing at the first miss.  This is the claim-side notion of "the
node reached by resolving each name in order". -/
def resolvePath : Command → List String → Option Command
  | cmd, [] => some cmd
  | cmd, n :: ns =>
    match cmd.command n with
    | some c => resolvePath c ns
    | none => none

/-- `Command.Command` is first-match search over the children by exact name
or exact alias. -/
theorem command_eq_find (cmd : Command) (n : String) :
    cmd.command n = cmd.commands.find? fun c => decide (c.name = n ∨ n ∈ c.aliases) := by
  rw [Command.command]
  induction cmd.commands with
  | nil => rfl
  | cons c cs ih =>
    rw [commandFind, List.find?]
    by_cases hc : c.name = n ∨ n ∈ c.aliases
    · simp [hc]
    · simp [hc, ih]

/-- **C6.** For every command `C` and every list of names `P`: `Lookup` on
`C` with `P` never fails; it returns the node reached by greedily resolving
each name in order against the current cursor (by exact child name or exact
alias, first match in declaration order), stopping at the first name with
no match and returning the deepest node reached; with the empty list it
returns `C` itself. -/
theorem c6_lookup_greedy (cmd : Command) (names : List String) :
    cmd.lookup [] = cmd ∧
    (∀ n, cmd.command n = cmd.commands.find? fun c => decide (c.name = n ∨ n ∈ c.aliases)) ∧
    ∃ p₁ p₂, names = p₁ ++ p₂ ∧
      resolvePath cmd p₁ = some (cmd.lookup names) ∧
      ∀ n ns, p₂ = n :: ns → (cmd.lookup names).command n = none := by
  refine ⟨rfl, fun n => command_eq_find cmd n, ?_⟩
  induction names generalizing cmd with
  | nil => exact ⟨[], [], rfl, rfl, by intro n ns h; cases h⟩
  | cons n ns ih =>
    cases hc : cmd.command n with
    | none =>
      refine ⟨[], n :: ns, rfl, ?_, ?_⟩
      · rw [Command.lookup, hc]
        rfl
      · intro n' ns' h
        cases h
        rw [Command.lookup, hc]
        exact hc
    | some c =>
      obtain ⟨p₁, p₂, hsplit, hres, hstop⟩ := ih c
      have hl : cmd.lookup (n :: ns) = c.lookup ns := by rw [Command.lookup, hc]
      refine ⟨n :: p₁, p₂, by rw [hsplit]; rfl, ?_, ?_⟩
      · rw [resolvePath, hc, hl]
        exact hres
      · intro n' ns' h
        rw [hl]
        exact hstop n' ns' h

/-! ## Claim C7: unknown-command recovery via the suggestion scan -/

/-- The nested suggestion scan is first-match search over the children for
a candidate name within the threshold. -/
theorem suggestFind_eq_find (arg : List Char) (d : Nat) (cs : List Command) :
    suggestFind arg d cs =
      cs.find? fun c => decide (∃ nm ∈ candidateNames c, ldist arg (lowerStr nm).data ≤ d) := by
  induction cs with
  | nil => rfl
  | cons c cs ih =>
    rw [suggestFind, List.find?]
    have hb : ((candidateNames c).any fun nm => decide (ldist arg (lowerStr nm).data ≤ d)) =
        decide (∃ nm ∈ candidateNames c, ldist arg (lowerStr nm).data ≤ d) := by
      by_cases h : ∃ nm ∈ candidateNames c, ldist arg (lowerStr nm).data ≤ d
      · simp [List.any_eq_true, h]
      · simp [List.any_eq_true, h]
        push_neg at h
        exact h
    rw [hb, ih]
    by_cases h : ∃ nm ∈ candidateNames c, ldist arg (lowerStr nm).data ≤ d <;> simp [h]

/-- **C7.** For every command `C` and non-empty argument list: `Suggest`
returns the corrective `SuggestionError` naming the first child of `C` (in
declaration order; a child's candidates are its name, aliases and suggested
names) with a case-folded candidate within the effective edit-distance
threshold (`DefaultMinDist` when unset) of the case-folded first argument;
when no candidate is within the threshold it returns the generic
unknown-command error carrying the offending token and `C`'s name. -/
theorem c7_suggest_first_within_threshold (cmd : Command) (a : String) (rest : List String) :
    cmd.suggest (a :: rest) =
      some (match cmd.commands.find? fun c => decide (∃ nm ∈ candidateNames c,
              ldist (lowerStr a).data (lowerStr nm).data ≤ cmd.effMinDist) with
            | some c => .suggestionError cmd.name a c.name
            | none => .suggestionMessage a cmd.name) := by
  rw [Command.suggest]
  rw [suggestFind_eq_find]
  rcases hf : cmd.commands.find? (fun c => decide (∃ nm ∈ candidateNames c,
      ldist (lowerStr a).data (lowerStr nm).data ≤ cmd.effMinDist)) with _ | c <;>
    rfl

end Kobra
